import Mathlib

/-!
Verification development for the Shrinkler compressor (C port).

Shallow embedding of the core routines:
* the length-prefixed number code (`cruncher_c/Coder.c`, `coder_encode_number`)
  and the reference decoder's number decoding
  (`decruncher_c/shrinkler_dec.c`, `shr_decode_number`);
* the range coder (`cruncher_c/RangeCoder.c`, `rangecoder_code`);
* the counting coder and its merge (`cruncher_c/CountingCoder.c`);
* the LZ symbol encoder (`cruncher_c/LZEncoder.c`) at the level of the
  (context, bit) call trace it issues, and the parse-result replay
  (`cruncher_c/LZParser.c`, `lzparseresult_encode`);
* the match finder (`cruncher_c/MatchFinder.c`).

Machine integers are modelled as `Nat`/`Int`; loops are translated into
structural recursions, with an explicit fuel argument where the C loop bound
is dynamic.
-/

namespace Shrinkler

/-! ### Number code (Coder.c, `coder_encode_number`)

`coder_encode_number` first emits, for bit-width index `i` starting at 0 and
while `4 << i <= number`, a 1 bit under context `base + (i*2 + 2)`; it then
emits a 0 under context `base + (i*2 + 2)` for the final `i`, and finally the
bits `(number >> i) & 1` under contexts `base + (i*2 + 1)` for `i` counting
down to 0.  The cost-cache branch is dead in this code base (every coder is
constructed with `cacheable = 0`, so `has_cache` never becomes 1), hence the
emitted (context, bit) sequence is exactly the two loops below. -/

/-- The unary prefix loop of `coder_encode_number` (Coder.c lines 63-65):
`for (i = 0; (4 << i) <= number; i++) emit (base + i*2+2, 1)`.
Returns the emitted symbols and the loop exit value of `i`.
The fuel only bounds the recursion; since `number` is a positive C `int`
(`number < 2^31`), the loop exits with `i <= 29`, so fuel 30 always
suffices. -/
def encodeNumberUnary (base number : Nat) : Nat → Nat → List (Nat × Bool) × Nat
  | 0, i => ([], i)
  | fuel + 1, i =>
    if 4 <<< i ≤ number then
      let rest := encodeNumberUnary base number fuel (i + 1)
      ((base + (i * 2 + 2), true) :: rest.1, rest.2)
    else
      ([], i)

/-- The data-bit loop of `coder_encode_number` (Coder.c lines 70-74):
`for (; i >= 0; i--) emit (base + i*2+1, (number >> i) & 1)`,
entered with the exit value of `i` from the unary loop. -/
def encodeNumberData (base number : Nat) : Nat → List (Nat × Bool)
  | 0 => [(base + (0 * 2 + 1), (number >>> 0) &&& 1 = 1)]
  | i + 1 =>
    (base + ((i + 1) * 2 + 1), (number >>> (i + 1)) &&& 1 = 1) ::
      encodeNumberData base number i

/-- `coder_encode_number` (Coder.c lines 47-77), as the list of
(context, bit) pairs handed to the underlying coder. -/
def encodeNumberSyms (base number : Nat) : List (Nat × Bool) :=
  let u := encodeNumberUnary base number 30 0
  u.1 ++ [(base + (u.2 * 2 + 2), false)] ++ encodeNumberData base number u.2

/-! ### Reference decoder's number decoding
(`shrinkler_dec.c`, `shr_decode_number`, lines 144-203)

The decoder is modelled at the level of the bit sequence it consumes: the
arithmetic-coding layer delivers exactly the bits the encoder coded (each
context is touched at most once per number with a fresh coder, so the
adaptive probabilities agree bit for bit).  `shr_decode_number` first scans
the unary length prefix, but caps the scan at 16 iterations
(`for (i = 0; i < 16; i++)`); it then reads `i + 1` data bits into an
accumulator that starts at 1. -/

/-- Body of the capped unary scan of `shr_decode_number` (lines 153-168):
`remaining` counts the iterations the `i < 16` bound still allows
(`remaining = 16 - i`), so the loop is structurally recursive on it. -/
def decodeNumberScanGo : Nat → Nat → List Bool → Option (Nat × List Bool)
  | 0, i, bits => some (i, bits)
  | _ + 1, _, [] => none
  | remaining + 1, i, b :: rest =>
    if b then decodeNumberScanGo remaining (i + 1) rest else some (i, rest)

/-- The capped unary scan of `shr_decode_number` (lines 153-168):
reads continue bits while `i < 16`, stopping early at the first 0 bit.
Returns the exit value of `i` and the remaining bits; `none` models the
decoder running out of input (`shr_decode_bit` returning -1). -/
def decodeNumberScan (i : Nat) (bits : List Bool) : Option (Nat × List Bool) :=
  decodeNumberScanGo (16 - i) i bits

/-- The data-bit loop of `shr_decode_number` (lines 175-196): reads `count`
bits, shifting each into `number` (which starts at 1). -/
def decodeNumberData : Nat → Nat → List Bool → Option (Nat × List Bool)
  | 0, number, bits => some (number, bits)
  | _ + 1, _, [] => none
  | count + 1, number, b :: rest =>
    decodeNumberData count (2 * number + (if b then 1 else 0)) rest

/-- `shr_decode_number` over a bit sequence: unary scan (capped at 16),
then `i + 1` data bits. -/
def decodeNumberBits (bits : List Bool) : Option (Nat × List Bool) :=
  match decodeNumberScan 0 bits with
  | none => none
  | some (i, rest) => decodeNumberData (i + 1) 1 rest

/-! ### Characterization of the number-code emission -/

/-- The exit value of the unary loop index: the number of indices `i` with
`4 << i <= n`, i.e. `log2 n - 1` for `n >= 2`. -/
def numberStopIndex (n : Nat) : Nat := n.log2 - 1

/-- The emission sequence of the number code, described as in the spec:
ones under `base + 2i + 2` while `4 << i <= n`, a terminating zero under the
next such context, then the bits of `n` from index `numberStopIndex n` down
to 0 under `base + 2i + 1`. -/
def numberSymsDescribed (base n : Nat) : List (Nat × Bool) :=
  ((List.range (numberStopIndex n)).map fun i => (base + (2 * i + 2), true))
    ++ [(base + (2 * numberStopIndex n + 2), false)]
    ++ ((List.range (numberStopIndex n + 1)).reverse.map
          fun i => (base + (2 * i + 1), n.testBit i))

/-! ### RangeCoder (RangeCoder.c)

State of the range coder: the per-context 16-bit probabilities, the coding
interval, the next output bit position `dest_bit` (a C `int`, initially -1),
and the output bit stream (`out` maps a bit position to the stored bit;
bit `p` lives in byte `p >> 3` under mask `0x80 >> (p & 7)`, so a flat bit
map is an exact model; `outSize` is the byte count of the buffer, which
`add_bit` grows with zero bytes on demand). -/

structure RCState where
  contexts : Nat → Nat
  intervalsize : Nat
  intervalmin : Nat
  destBit : Int
  out : Nat → Bool
  outSize : Nat

/-- `sizetable[k]` of `init_sizetable` (RangeCoder.c lines 21-27):
`floor(0.5 + (8 - log2(128 + k)) * 64)`, here computed exactly:
for `x = 128 + k` the rounded value is the largest `n` with
`2^(2n-1) <= x^128`, i.e. `(1024 - log2 (x^128)) / 2` (ties cannot occur
since `x^128` is a power of 2 only at `k = 0`, where both forms give 64). -/
def sizetable (k : Nat) : Nat :=
  (1024 - Nat.log2 ((128 + k) ^ 128)) / 2

/-- The carry-propagation loop of `add_bit` (RangeCoder.c lines 29-46):
starting below position `pos`, toggle output bits downward until a toggle
turns a 0 into a 1 (or the positions run out).  The byte-growth loop is
modelled by enlarging `outSize` (new bytes are zero, matching the all-false
default of `out`). -/
def addBitGo : Nat → (Nat → Bool) → Nat → ((Nat → Bool) × Nat)
  | 0, out, outSize => (out, outSize)
  | p + 1, out, outSize =>
    let bytepos := p / 8
    let outSize' := max outSize (bytepos + 1)
    let newBit := !(out p)
    let out' := fun q => if q = p then newBit else out q
    if newBit then (out', outSize') else addBitGo p out' outSize'

/-- `add_bit` (RangeCoder.c lines 29-46): the loop starts at
`pos = dest_bit` and first decrements, returning at once if `pos < 0`. -/
def addBit (s : RCState) : RCState :=
  let r := addBitGo s.destBit.toNat s.out s.outSize
  { s with out := r.1, outSize := r.2 }

/-- One iteration of the renormalization loop of `rangecoder_code`
(RangeCoder.c lines 141-146): advance `dest_bit`, shift the interval left,
and propagate a carry out of bit 16. -/
def renormStep (s : RCState) : RCState :=
  let s1 : RCState :=
    { s with
        destBit := s.destBit + 1
        intervalsize := s.intervalsize <<< 1
        intervalmin := s.intervalmin <<< 1 }
  if s1.intervalmin &&& 0x10000 ≠ 0 then addBit s1 else s1

/-- The renormalization loop of `rangecoder_code` (RangeCoder.c lines
140-147): while `intervalsize < 0x8000`, run `renormStep`.  For any
`intervalsize >= 1` the loop doubles it to `>= 0x8000` within 15
iterations, so fuel 16 is exact on every state the C code terminates on. -/
def renormGo : Nat → RCState → RCState
  | 0, s => s
  | fuel + 1, s =>
    if s.intervalsize < 0x8000 then renormGo fuel (renormStep s) else s

/-- The coder's "size so far", exactly as `rangecoder_code` computes it
(RangeCoder.c lines 100-107 and 150-157): when `dest_bit < 0` the
`dest_bit << 6` term is **omitted**. -/
def codeSizeSoFar (s : RCState) : Int :=
  if s.destBit < 0 then (sizetable ((s.intervalsize - 0x8000) >>> 8) : Int)
  else s.destBit * 64 + (sizetable ((s.intervalsize - 0x8000) >>> 8) : Int)

/-- The "size so far" of the claim / spec section 4.1:
`(dest_bit << 6) + sizetable[(intervalsize - 0x8000) >> 8]`, with no
special case for negative `dest_bit` (`x << 6` is `x * 64`). -/
def claimSizeSoFar (s : RCState) : Int :=
  s.destBit * 64 + (sizetable ((s.intervalsize - 0x8000) >>> 8) : Int)

/-- The interval/probability update of `rangecoder_code` (RangeCoder.c
lines 114-138): `threshold = (intervalsize * prob) >> 16`; bit 0 adds
`threshold` to `intervalmin` (with carry via `add_bit`), shrinks the
interval by `threshold` and decays the probability to `prob - (prob >> 4)`;
bit 1 sets the interval to `threshold` and raises the probability to
`prob + (0xffff >> 4) - (prob >> 4)` (the literal C expression). -/
def applyBit (s : RCState) (ctx : Nat) (bit : Bool) : RCState :=
  let prob := s.contexts ctx
  let threshold := (s.intervalsize * prob) >>> 16
  if bit then
    { s with
        intervalsize := threshold
        contexts := fun q => if q = ctx then
          prob + (0xffff >>> 4) - (prob >>> 4) else s.contexts q }
  else
    let smin : RCState := { s with intervalmin := s.intervalmin + threshold }
    let smin2 := if smin.intervalmin &&& 0x10000 ≠ 0 then addBit smin else smin
    { smin2 with
        intervalsize := smin2.intervalsize - threshold
        contexts := fun q => if q = ctx then
          prob - (prob >>> 4) else s.contexts q }

/-- `rangecoder_code` (RangeCoder.c lines 90-164).  Returns the reported
cost and the new state.  A negative context index is a no-op returning
cost 0 (lines 92-96).  Otherwise the update `applyBit` runs, the interval
renormalizes (`renormGo`), and `intervalmin` is masked to 16 bits; the
cost is the difference of `codeSizeSoFar` after and before. -/
def rangecoderCode (s : RCState) (contextIndex : Int) (bit : Bool) :
    Int × RCState :=
  if contextIndex < 0 then (0, s)
  else
    let sizeBefore := codeSizeSoFar s
    let s2 := renormGo 16 (applyBit s contextIndex.toNat bit)
    let s3 : RCState := { s2 with intervalmin := s2.intervalmin &&& 0xffff }
    (codeSizeSoFar s3 - sizeBefore, s3)

/-- The initial coder state built by `rangecoder_new` (RangeCoder.c lines
48-81): all probabilities `0x8000`, `dest_bit = -1`, `intervalsize =
0x8000`, `intervalmin = 0`, empty output. -/
def rangecoderInit : RCState where
  contexts := fun _ => 0x8000
  intervalsize := 0x8000
  intervalmin := 0
  destBit := -1
  out := fun _ => false
  outSize := 0

/-! ### LZ symbol encoder (LZEncoder.c), at the (context, bit) trace level

The three coder flavors differ only in the costs they return; the sequence
of `coder_code(context, bit)` calls an encode makes is independent of the
bound coder (and the number-code cache is dead, see above).  We therefore
model each encode operation by the list of (context, bit) pairs it issues
plus its LZState update.  Context constants (LZEncoder.h): CONTEXT_KIND = 0,
CONTEXT_REPEATED = -1 (so `1 + CONTEXT_REPEATED` is the single context 0),
CONTEXT_GROUP_OFFSET = 2, CONTEXT_GROUP_LENGTH = 3, NUM_CONTEXTS = 1025. -/

structure LZState where
  afterFirst : Bool
  prevWasRef : Bool
  parity : Nat
  lastOffset : Nat

/-- `lzencoder_set_initial_state` (LZEncoder.c lines 30-35). -/
def lzInitialState : LZState := ⟨false, false, 0, 0⟩

/-- `lzencoder_construct_state` (LZEncoder.c lines 37-42). -/
def constructState (pos : Nat) (prevWasRef : Bool) (lastOffset : Nat) :
    LZState :=
  ⟨0 < pos, prevWasRef, pos, lastOffset⟩

/-- The literal bit-tree loop of `lzencoder_encode_literal` (LZEncoder.c
lines 57-88): for `i = 7` down to 0, code bit `(value >> i) & 1` under
context `1 + (parity_offset | context)`, then shift the bit into
`context` (which starts at 1).  `k` counts the remaining bits
(`i = k - 1`). -/
def literalTreeGo (po value : Nat) : Nat → Nat → List (Nat × Bool)
  | 0, _ => []
  | k + 1, context =>
    let bit : Bool := (value >>> k) &&& 1 = 1
    (1 + (po ||| context), bit) ::
      literalTreeGo po value k ((context <<< 1) ||| (if bit then 1 else 0))

/-- `lzencoder_encode_literal` (LZEncoder.c lines 44-99): the emitted
(context, bit) pairs.  `parity_offset = (parity & parity_mask) << 8`;
a KIND_LIT bit under `1 + CONTEXT_KIND + parity_offset` is emitted only
when `after_first`. -/
def encodeLiteralSyms (parityMask value : Nat) (st : LZState) :
    List (Nat × Bool) :=
  let po := (st.parity &&& parityMask) <<< 8
  (if st.afterFirst then [(1 + 0 + po, false)] else []) ++
    literalTreeGo po value 8 1

/-- The LZState update of `lzencoder_encode_literal` (lines 90-93). -/
def literalNextState (st : LZState) : LZState :=
  ⟨true, false, st.parity + 1, st.lastOffset⟩

/-- `lzencoder_encode_reference` (LZEncoder.c lines 101-140): KIND_REF under
`1 + CONTEXT_KIND + parity_offset`; if the previous symbol was not a
reference, the bit `offset == last_offset` under the repeated context
(`1 + CONTEXT_REPEATED = 0`); unless repeated, the number `offset + 2` in
the OFFSET group (`1 + (2 << 8) = 513`); always the number `length` in the
LENGTH group (`1 + (3 << 8) = 769`). -/
def encodeReferenceSyms (parityMask offset length : Nat) (st : LZState) :
    List (Nat × Bool) :=
  let po := (st.parity &&& parityMask) <<< 8
  let repOffset : Bool := offset = st.lastOffset
  [(1 + 0 + po, true)] ++
    (if !st.prevWasRef then [(0, repOffset)] else []) ++
    (if !repOffset then encodeNumberSyms (1 + (2 <<< 8)) (offset + 2) else []) ++
    encodeNumberSyms (1 + (3 <<< 8)) length

/-- The LZState update of `lzencoder_encode_reference` (lines 131-134). -/
def referenceNextState (offset length : Nat) (st : LZState) : LZState :=
  ⟨true, true, st.parity + length, offset⟩

/-- `lzencoder_finish` (LZEncoder.c lines 142-166): KIND_REF, then (if the
previous symbol was not a reference) a 0 under the repeated context, then
the number 2 in the OFFSET group (the sentinel offset 0). -/
def finishSyms (parityMask : Nat) (st : LZState) : List (Nat × Bool) :=
  let po := (st.parity &&& parityMask) <<< 8
  [(1 + 0 + po, true)] ++
    (if !st.prevWasRef then [(0, false)] else []) ++
    encodeNumberSyms (1 + (2 <<< 8)) 2

/-! ### Parse-result replay (LZParser.c, `lzparseresult_encode`) -/

/-- One (pos, offset, length) triple of an `LZParseResult` (LZParser.h). -/
structure LZResultEdge where
  pos : Nat
  offset : Nat
  length : Nat

/-- Replay output: the full (context, bit) trace and, for claim C10, the
list of `encode_reference` calls as (state_before, offset, length). -/
structure ReplayOut where
  syms : List (Nat × Bool)
  refCalls : List (LZState × Nat × Nat)
  pos : Nat
  state : LZState

/-- A run of `count` literal emissions (`lzparseresult_encode`'s
`while (pos < edge->pos)` and tail loops), threading the state. -/
def literalRun (parityMask : Nat) (data : List Nat) :
    Nat → Nat → LZState → List (Nat × Bool) × LZState
  | 0, _, st => ([], st)
  | k + 1, pos, st =>
    let syms := encodeLiteralSyms parityMask (data.getD pos 0) st
    let r := literalRun parityMask data k (pos + 1) (literalNextState st)
    (syms ++ r.1, r.2)

/-- The edge loop of `lzparseresult_encode` (LZParser.c lines 390-397),
over the edges in chronological order (the C iterates the stored array
backwards): literals up to `edge->pos`, then the reference, then
`pos += length`. -/
def replayEdges (parityMask : Nat) (data : List Nat) :
    List LZResultEdge → Nat → LZState → ReplayOut
  | [], pos, st => ⟨[], [], pos, st⟩
  | e :: rest, pos, st =>
    let lit := literalRun parityMask data (e.pos - pos) pos st
    let refSyms := encodeReferenceSyms parityMask e.offset e.length lit.2
    let r := replayEdges parityMask data rest
      ((pos + (e.pos - pos)) + e.length)
      (referenceNextState e.offset e.length lit.2)
    ⟨lit.1 ++ refSyms ++ r.syms, (lit.2, e.offset, e.length) :: r.refCalls,
      r.pos, r.state⟩

/-- `lzparseresult_encode` (LZParser.c lines 383-414): replay the stored
edges in reverse order (chronological), emit the tail literals, apply the
zero-padding rule (one literal zero, then a second literal zero if the
padding is exactly 2, else a reference with offset 1 and length
`zero_padding - 1`), then finish. -/
def resultEncode (parityMask : Nat) (data : List Nat) (dataLength : Nat)
    (edgesStored : List LZResultEdge) (zeroPadding : Nat) : ReplayOut :=
  let r := replayEdges parityMask data edgesStored.reverse 0 lzInitialState
  let tail := literalRun parityMask data (dataLength - r.pos) r.pos r.state
  let st1 := tail.2
  let pad : List (Nat × Bool) × List (LZState × Nat × Nat) × LZState :=
    if 0 < zeroPadding then
      let lit0 := encodeLiteralSyms parityMask 0 st1
      let st2 := literalNextState st1
      if zeroPadding = 2 then
        (lit0 ++ encodeLiteralSyms parityMask 0 st2, [], literalNextState st2)
      else if 1 < zeroPadding then
        (lit0 ++ encodeReferenceSyms parityMask 1 (zeroPadding - 1) st2,
          [(st2, 1, zeroPadding - 1)],
          referenceNextState 1 (zeroPadding - 1) st2)
      else (lit0, [], st2)
    else ([], [], st1)
  ⟨r.syms ++ tail.1 ++ pad.1 ++ finishSyms parityMask pad.2.2,
    r.refCalls ++ pad.2.1, dataLength, pad.2.2⟩

/-! ### CountingCoder (CountingCoder.c) and the Pack counting step -/

/-- `countingcoder_code` (CountingCoder.c lines 13-19): increment the
(context, bit) counter when the context is in range; counts are modelled as
a function from (context, bit). -/
def countOne (numContexts : Nat) (counts : Nat → Bool → Nat) (c : Nat)
    (b : Bool) : Nat → Bool → Nat :=
  if c < numContexts then
    fun c' b' => if c' = c ∧ b' = b then counts c' b' + 1 else counts c' b'
  else counts

/-- Tallying a whole (context, bit) trace through a CountingCoder. -/
def tallySyms (numContexts : Nat) : List (Nat × Bool) →
    (Nat → Bool → Nat) → (Nat → Bool → Nat)
  | [], counts => counts
  | (c, b) :: rest, counts =>
    tallySyms numContexts rest (countOne numContexts counts c b)

/-- `countingcoder_merge` (CountingCoder.c lines 54-69): each entry of the
merged coder is `(old * 3 + new) / 4`. -/
def mergeCounts (oldC newC : Nat → Bool → Nat) : Nat → Bool → Nat :=
  fun c b => (oldC c b * 3 + newC c b) / 4

/-- The per-iteration counting step of `packData` as the CODE performs it
(Pack.c lines 122-133): the counting encoder is bound to the RUNNING
`counting_coder` (line 124), so the result's frequencies are tallied into
the old counts, while the freshly created `new_counting_coder` never
receives a call and stays all zero; the merge is then
`merge(old + freqs, 0)`. -/
def packCountStep (numContexts : Nat) (oldC : Nat → Bool → Nat)
    (trace : List (Nat × Bool)) : Nat → Bool → Nat :=
  mergeCounts (tallySyms numContexts trace oldC) (fun _ _ => 0)

/-- Modelled from the spec: the counting step as the claim describes it -
re-encode through the fresh all-zero CountingCoder and merge the running
counts with those fresh counts: `merge(old, freqs)`. -/
def claimCountStep (numContexts : Nat) (oldC : Nat → Bool → Nat)
    (trace : List (Nat × Bool)) : Nat → Bool → Nat :=
  mergeCounts oldC (tallySyms numContexts trace (fun _ _ => 0))

/-! ### `new_edge` guard (LZParser.c lines 153-166) -/

/-- The reference call `new_edge` makes through the measuring coder:
`none` when the candidate duplicates the source's (offset, target) pair
(line 154); otherwise the call's state is `construct_state(pos,
pos == target(source), source->offset)`. -/
def newEdgeRefCall (srcOffset srcTarget pos offset length : Nat) :
    Option (LZState × Nat × Nat) :=
  if offset = srcOffset ∧ pos = srcTarget then none
  else some (constructState pos (pos = srcTarget) srcOffset, offset, length)

/-- Adjacency of two chronologically consecutive result edges, as the
parser produces them: the later edge starts at or after the earlier one's
target, and a back-to-back edge (starting exactly at the target) never
repeats the earlier offset - precisely what the `new_edge` guard enforces
for source-linked edges. -/
def edgeAdj (e1 e2 : LZResultEdge) : Prop :=
  e1.pos + e1.length ≤ e2.pos ∧
    (e2.pos = e1.pos + e1.length → e2.offset ≠ e1.offset)

instance (e1 e2 : LZResultEdge) : Decidable (edgeAdj e1 e2) :=
  inferInstanceAs (Decidable (e1.pos + e1.length ≤ e2.pos ∧
    (e2.pos = e1.pos + e1.length → e2.offset ≠ e1.offset)))

/-! ### MatchFinder (MatchFinder.c)

The match finder's state: the suffix array `sa`, inverse array `isa` and
LCP array `lcp` are modelled as total functions on `Int` (the C arrays,
indexed by ints); the invariants proved about `next_match` are control-flow
facts that hold for arbitrary array contents.  `buffer` is the backing
array of the `IntHeap` match buffer (`match_buffer.data`, with
`size = buffer.length`). -/

structure MFState where
  sa : Int → Int
  isa : Int → Int
  lcp : Int → Int
  length : Int
  minLength : Int
  matchPatience : Int
  maxSameLength : Int
  currentPos : Int
  minPos : Int
  leftIndex : Int
  rightIndex : Int
  leftLength : Int
  rightLength : Int
  currentLength : Int
  buffer : List Int

/-- One swap of the array-backed heap (`heap_push`/`heap_pop` bubbling,
MatchFinder.c lines 26-34 and 44-61). -/
def heapSwap (l : List Int) (i j : Nat) : List Int :=
  (l.set i (l.getD j 0)).set j (l.getD i 0)

/-- The bubble-up loop of `heap_push` (MatchFinder.c lines 26-34):
while `pos > 0`, stop when `data[parent] <= data[pos]`, else swap and move
to the parent.  The parent index strictly decreases, so fuel `pos + 1`
always suffices. -/
def heapBubbleUp : Nat → Nat → List Int → List Int
  | 0, _, l => l
  | fuel + 1, pos, l =>
    if pos = 0 then l
    else if l.getD ((pos - 1) / 2) 0 ≤ l.getD pos 0 then l
    else heapBubbleUp fuel ((pos - 1) / 2) (heapSwap l ((pos - 1) / 2) pos)

/-- `heap_push` (MatchFinder.c lines 17-35): append at the end and bubble
up (the capacity-doubling realloc is invisible at the list level). -/
def heapPush (l : List Int) (v : Int) : List Int :=
  heapBubbleUp (l.length + 1) l.length (l ++ [v])

/-- The child selection of one bubble-down step (MatchFinder.c lines
46-55): the smaller in-range child of `pos`, or `pos` itself. -/
def downTarget (l : List Int) (pos : Nat) : Nat :=
  let left := 2 * pos + 1
  let right := 2 * pos + 2
  let s1 := if left < l.length ∧ l.getD left 0 < l.getD pos 0 then left else pos
  if right < l.length ∧ l.getD right 0 < l.getD s1 0 then right else s1

/-- The bubble-down loop of `heap_pop` (MatchFinder.c lines 43-61):
swap with the smaller child until the heap property is locally restored. -/
def heapBubbleDown : Nat → Nat → List Int → List Int
  | 0, _, l => l
  | fuel + 1, pos, l =>
    if downTarget l pos = pos then l
    else heapBubbleDown fuel (downTarget l pos) (heapSwap l pos (downTarget l pos))

/-- `heap_pop` (MatchFinder.c lines 37-64): returns -1 on an empty heap;
otherwise returns the root, moves the last element to the root, shrinks,
and bubbles down. -/
def heapPop (l : List Int) : Int × List Int :=
  match l with
  | [] => (-1, [])
  | x :: _ =>
    let l2 := (l.set 0 (l.getD (l.length - 1) 0)).dropLast
    (x, heapBubbleDown l2.length 0 l2)

/-- `heap_top` (MatchFinder.c lines 66-68). -/
def heapTop (l : List Int) : Int :=
  match l with
  | [] => -1
  | x :: _ => x

/-- `next_length` (MatchFinder.c lines 197-199). -/
def nextLength (s : MFState) : Int := max s.leftLength s.rightLength

/-- The loop of `extend_left` (MatchFinder.c lines 170-181): while
`left_length >= min_length`, lower `left_length` to
`lcp[--left_index]`, break when `sa[left_index]` lies in
`[min_pos, current_pos)`, and zero the length when the patience bound is
exceeded.  The body runs at most `match_patience + 1` times, so the fuel
used by `extendLeft` is never exhausted. -/
def extendLeftGo : Nat → Int → MFState → MFState
  | 0, _, s => s
  | fuel + 1, iter, s =>
    if s.minLength ≤ s.leftLength then
      let li := s.leftIndex - 1
      let ll := min s.leftLength (s.lcp li)
      let s1 : MFState := { s with leftIndex := li, leftLength := ll }
      let p := s1.sa li
      if p < s1.currentPos ∧ s1.minPos ≤ p then s1
      else if s1.matchPatience < iter + 1 then { s1 with leftLength := 0 }
      else extendLeftGo fuel (iter + 1) s1
    else s

/-- `extend_left` (MatchFinder.c lines 170-181), started with `iter = 0`. -/
def extendLeft (s : MFState) : MFState :=
  extendLeftGo (s.matchPatience.toNat + 2) 0 s

/-- The loop of `extend_right` (MatchFinder.c lines 183-195): lower
`right_length` to `lcp[right_index]`, break when it falls below
`min_length`, advance `right_index`, break when `sa[right_index]` lies in
`[min_pos, current_pos)`, and zero the length when the patience bound is
exceeded. -/
def extendRightGo : Nat → Int → MFState → MFState
  | 0, _, s => s
  | fuel + 1, iter, s =>
    let rl := min s.rightLength (s.lcp s.rightIndex)
    let s1 : MFState := { s with rightLength := rl }
    if s1.rightLength < s1.minLength then s1
    else
      let ri := s1.rightIndex + 1
      let s2 : MFState := { s1 with rightIndex := ri }
      let p := s2.sa ri
      if p < s2.currentPos ∧ s2.minPos ≤ p then s2
      else if s2.matchPatience < iter + 1 then { s2 with rightLength := 0 }
      else extendRightGo fuel (iter + 1) s2

/-- `extend_right` (MatchFinder.c lines 183-195), started with `iter = 0`. -/
def extendRight (s : MFState) : MFState :=
  extendRightGo (s.matchPatience.toNat + 2) 0 s

/-- `matchfinder_begin_matching` (MatchFinder.c lines 201-211). -/
def beginMatching (s : MFState) (pos : Int) : MFState :=
  let s1 : MFState :=
    { s with
        currentPos := pos
        minPos := 0
        leftIndex := s.isa pos
        leftLength := s.length - pos }
  let s2 := extendLeft s1
  let s3 : MFState :=
    { s2 with rightIndex := s2.isa pos, rightLength := s2.length - pos }
  extendRight s3

/-- The buffer-refill `do ... while` loop of `matchfinder_next_match`
(MatchFinder.c lines 219-238), threading the local `new_min_pos`: take the
cursor of the longer side (ties to the right, as in
`left_length > right_length`), extend that side, raise `new_min_pos`, then
either push (buffer below `max_same_length`) or replace the smallest
buffered position and set `min_pos` to the new smallest; loop while
`next_length()` still equals `current_length`.  The fuel only bounds the
recursion (the C loop is bounded by the suffix-array walk); every
conclusion proved below holds for every fuel.  `fillChoose` is the cursor
selection and extension of one iteration (lines 220-227). -/
def fillChoose (s : MFState) : Int × MFState :=
  if s.rightLength < s.leftLength then (s.sa s.leftIndex, extendLeft s)
  else (s.sa s.rightIndex, extendRight s)

/-- The buffer update of one refill iteration (MatchFinder.c lines
229-237): push while below `max_same_length`; otherwise replace the
smallest buffered position when the new one is larger, and set `min_pos`
to the buffer's smallest. -/
def fillBuffer (s1 : MFState) (matchPos : Int) : MFState :=
  if (s1.buffer.length : Int) < s1.maxSameLength then
    { s1 with buffer := heapPush s1.buffer matchPos }
  else
    let sb : MFState :=
      if heapTop s1.buffer < matchPos then
        { s1 with buffer := heapPush (heapPop s1.buffer).2 matchPos }
      else s1
    { sb with minPos := heapTop sb.buffer }

def fillGo : Nat → Int → MFState → MFState × Int
  | 0, nmp, s => (s, nmp)
  | fuel + 1, nmp, s =>
    let c := fillChoose s
    let s2 := fillBuffer c.2 c.1
    if nextLength s2 = s2.currentLength then fillGo fuel (max nmp c.1) s2
    else (s2, max nmp c.1)

/-- `matchfinder_next_match` (MatchFinder.c lines 213-247): when the match
buffer is empty, set `current_length = next_length()`, return `none` when
it falls below `min_length`, otherwise refill the buffer and set `min_pos`
to the batch maximum; then pop the buffer and return the position together
with `current_length`. -/
def nextMatch (fuel : Nat) (s : MFState) : Option ((Int × Int) × MFState) :=
  let filled : Option MFState :=
    if s.buffer.isEmpty then
      let s0 : MFState := { s with currentLength := nextLength s }
      if s0.currentLength < s0.minLength then none
      else
        let r := fillGo fuel s0.minPos s0
        some { r.1 with minPos := r.2 }
    else some s
  match filled with
  | none => none
  | some s1 =>
    let pr := heapPop s1.buffer
    some ((pr.1, s1.currentLength), { s1 with buffer := pr.2 })

/-- A sequence of successive `next_match` calls (one fuel per call),
collecting the returned (match_pos, match_length) pairs and stopping at
the first `none`. -/
def runMatches : List Nat → MFState → List (Int × Int) × MFState
  | [], s => ([], s)
  | f :: fs, s =>
    match nextMatch f s with
    | none => ([], s)
    | some (m, s') =>
      let r := runMatches fs s'
      (m :: r.1, r.2)

/-- The cursor invariant: whenever a side's length is still at least
`min_length` (so the fill loop may take its cursor), the suffix-array entry
under that cursor is a position strictly before the query position. -/
def CurInv (s : MFState) : Prop :=
  (s.minLength ≤ s.leftLength → s.sa s.leftIndex < s.currentPos) ∧
    (s.minLength ≤ s.rightLength → s.sa s.rightIndex < s.currentPos)

/-- The `next_match` invariant: positive minimum length and query position,
non-negative `min_pos`, every buffered position before the query position
and at most `min_pos`, buffered positions only while `current_length`
dominates the cursor lengths, and the cursor invariant. -/
def MFInv (s : MFState) : Prop :=
  1 ≤ s.minLength ∧ 0 ≤ s.minPos ∧ 0 < s.currentPos ∧
    (∀ v ∈ s.buffer, v < s.currentPos ∧ v ≤ s.minPos) ∧
    (s.buffer ≠ [] →
      nextLength s ≤ s.currentLength ∧ s.minLength ≤ s.currentLength) ∧
    CurInv s

/-- The ghost bound used to chain non-increasing match lengths across
calls: `L` dominates the cursor lengths and, once the buffer is non-empty,
the batch length. -/
def MFBound (s : MFState) (L : Int) : Prop :=
  nextLength s ≤ L ∧ (s.buffer ≠ [] → s.currentLength ≤ L)

/-- A list read as an integer array (out-of-range reads give 0). -/
def mfArr (l : List Int) : Int → Int := fun i => l.getD i.toNat 0

/-- A concrete match-finder state over the 4-byte input `abab`
(suffix array `[4,2,0,3,1]` over the 5 suffixes including the empty one,
its inverse `[2,4,1,3,0]`, LCP array `[0,2,0,1,0]`), with
`min_length = 2`, `match_patience = 100`, `max_same_length = 10`. -/
def mfExample : MFState :=
  { sa := mfArr [4, 2, 0, 3, 1]
    isa := mfArr [2, 4, 1, 3, 0]
    lcp := mfArr [0, 2, 0, 1, 0]
    length := 4
    minLength := 2
    matchPatience := 100
    maxSameLength := 10
    currentPos := 0
    minPos := 0
    leftIndex := 0
    rightIndex := 0
    leftLength := 0
    rightLength := 0
    currentLength := 0
    buffer := [] }

theorem four_shiftLeft (i : Nat) : 4 <<< i = 2 ^ (i + 2) := by
  rw [Nat.shiftLeft_eq]
  rw [pow_succ, pow_succ]
  ring

theorem unary_cond_iff (n i : Nat) (h : 2 ≤ n) :
    4 <<< i ≤ n ↔ i < numberStopIndex n := by
  have h0 : n ≠ 0 := by omega
  have h1 : 1 ≤ n.log2 := (Nat.le_log2 h0).mpr (by simpa using h)
  rw [four_shiftLeft, ← Nat.le_log2 h0]
  unfold numberStopIndex
  omega

theorem encodeNumberUnary_eq (base n : Nat) (h : 2 ≤ n) :
    ∀ fuel i, numberStopIndex n ≤ i + fuel → i ≤ numberStopIndex n →
      encodeNumberUnary base n fuel i =
        ((List.range' i (numberStopIndex n - i)).map
            fun j => (base + (j * 2 + 2), true),
          numberStopIndex n) := by
  intro fuel
  induction fuel with
  | zero =>
    intro i h1 h2
    have hi : i = numberStopIndex n := by omega
    subst hi
    simp [encodeNumberUnary]
  | succ fuel ih =>
    intro i h1 h2
    by_cases hc : 4 <<< i ≤ n
    · have hlt : i < numberStopIndex n := (unary_cond_iff n i h).mp hc
      have hsub : numberStopIndex n - i = (numberStopIndex n - (i + 1)) + 1 := by
        omega
      rw [encodeNumberUnary, if_pos hc, ih (i + 1) (by omega) (by omega),
        hsub, List.range'_succ]
      simp
    · have hge : ¬ i < numberStopIndex n := fun h' => hc ((unary_cond_iff n i h).mpr h')
      have hi : i = numberStopIndex n := by omega
      subst hi
      rw [encodeNumberUnary, if_neg hc]
      simp

theorem decide_and_one_eq_testBit (n i : Nat) :
    (decide ((n >>> i) &&& 1 = 1)) = n.testBit i := by
  rw [Nat.testBit_to_div_mod, Nat.and_one_is_mod, Nat.shiftRight_eq_div_pow]

theorem encodeNumberData_eq (base n : Nat) :
    ∀ i, encodeNumberData base n i =
      (List.range (i + 1)).reverse.map fun j => (base + (2 * j + 1), n.testBit j) := by
  intro i
  induction i with
  | zero =>
    have h1 : List.range 1 = [0] := rfl
    simp [encodeNumberData, Nat.testBit_to_div_mod, Nat.and_one_is_mod, h1]
  | succ i ih =>
    rw [encodeNumberData, ih]
    have hr : List.range (i + 1 + 1) = List.range (i + 1) ++ [i + 1] :=
      List.range_succ (i + 1)
    rw [hr, List.reverse_append]
    simp [decide_and_one_eq_testBit, Nat.mul_comm]

theorem log2_le_self (n : Nat) : n.log2 ≤ n := by
  rcases Nat.eq_zero_or_pos n with h | h
  · simp [h, Nat.log2]
  · have h1 : 2 ^ n.log2 ≤ n := Nat.log2_self_le (by omega)
    have h2 : n.log2 < 2 ^ n.log2 := Nat.lt_two_pow _
    omega

/-- The number code emits exactly: the unary ones, the stop bit, then the
data bits from `numberStopIndex n` down to 0 (for `n` in the positive
C `int` range). -/
theorem encodeNumberSyms_eq_described (base n : Nat) (h : 2 ≤ n)
    (h31 : n < 2 ^ 31) : encodeNumberSyms base n = numberSymsDescribed base n := by
  unfold encodeNumberSyms numberSymsDescribed
  have hlog : n.log2 < 31 := (Nat.log2_lt (by omega)).mpr h31
  have hfuel : numberStopIndex n ≤ 0 + 30 := by
    unfold numberStopIndex
    omega
  rw [encodeNumberUnary_eq base n h 30 0 hfuel (by omega)]
  simp only [encodeNumberData_eq]
  simp [List.range_eq_range', Nat.mul_comm]

/-! ### Claim theorems for the number code -/

/-- C4 counterexample: encoding the value 2 does not produce a single 0 under
context `base + 2`; a data bit under `base + 1` follows (shown at
`base = 513`, the OFFSET group used by the encoder). -/
theorem number_code_value_two_not_single :
    encodeNumberSyms 513 2 ≠ [(513 + 2, false)] := by
  decide

/-- C4 (amended): for every `n >= 2` the number code emits, for bit-width
index `i` from 0, a 1 under `base + 2i + 2` while `4 << i <= n`, then a
terminating 0 under the next such context, then the bits `(n >> i) & 1`
under `base + 2i + 1` for `i` stepping down to 0; the value 2 produces
(0 at `base+2`, 0 at `base+1`), 3 produces (0 at `base+2`, 1 at `base+1`),
and 4 produces (1 at `base+2`, 0 at `base+4`, 0 at `base+3`, 0 at
`base+1`). -/
theorem number_code_emission (base n : Nat) (h : 2 ≤ n) (h31 : n < 2 ^ 31) :
    encodeNumberSyms base n = numberSymsDescribed base n ∧
    encodeNumberSyms base 2 = [(base + 2, false), (base + 1, false)] ∧
    encodeNumberSyms base 3 = [(base + 2, false), (base + 1, true)] ∧
    encodeNumberSyms base 4 =
      [(base + 2, true), (base + 4, false), (base + 3, false), (base + 1, false)] := by
  refine ⟨encodeNumberSyms_eq_described base n h h31, ?_, ?_, ?_⟩ <;>
    norm_num [encodeNumberSyms, encodeNumberUnary, encodeNumberData,
      four_shiftLeft, Nat.shiftRight_eq_div_pow, Nat.and_one_is_mod]

/-- Witness for `number_code_emission` at `base = 0`, `n = 5`. -/
theorem number_code_emission_witness :
    2 ≤ 5 ∧ 5 < 2 ^ 31 ∧
      (encodeNumberSyms 0 5 = numberSymsDescribed 0 5 ∧
        encodeNumberSyms 0 2 = [(0 + 2, false), (0 + 1, false)] ∧
        encodeNumberSyms 0 3 = [(0 + 2, false), (0 + 1, true)] ∧
        encodeNumberSyms 0 4 =
          [(0 + 2, true), (0 + 4, false), (0 + 3, false), (0 + 1, false)]) :=
  ⟨by norm_num, by norm_num, number_code_emission 0 5 (by norm_num) (by norm_num)⟩

theorem log2_131073 : Nat.log2 131073 = 17 := by
  have h1 : 17 ≤ Nat.log2 131073 := (Nat.le_log2 (by norm_num)).mpr (by norm_num)
  have h2 : Nat.log2 131073 < 18 := (Nat.log2_lt (by norm_num)).mpr (by norm_num)
  omega

theorem log2_131075 : Nat.log2 131075 = 17 := by
  have h1 : 17 ≤ Nat.log2 131075 := (Nat.le_log2 (by norm_num)).mpr (by norm_num)
  have h2 : Nat.log2 131075 < 18 := (Nat.log2_lt (by norm_num)).mpr (by norm_num)
  omega

/-- C3: the number-code round trip FAILS at n = 131073 (< 2^30).  The encoder
emits a 16-ones unary bit-width index, but `shr_decode_number` caps its unary
scan at 16 iterations, so it misreads the terminating 0 as a data bit and
decodes 131072 instead of 131073 (leaving one encoded bit unconsumed).
Base context 513 is the OFFSET group the LZ encoder uses. -/
theorem decode_number_cap_failure :
    decodeNumberBits ((encodeNumberSyms 513 131073).map Prod.snd) =
        some (131072, [true]) ∧
      (131072 : Nat) ≠ 131073 := by
  have hstop : numberStopIndex 131073 = 16 := by
    rw [numberStopIndex, log2_131073]
  rw [encodeNumberSyms_eq_described 513 131073 (by norm_num) (by norm_num)]
  rw [numberSymsDescribed, hstop]
  decide

theorem addBit_destBit (s : RCState) : (addBit s).destBit = s.destBit := rfl

theorem addBit_contexts (s : RCState) : (addBit s).contexts = s.contexts := rfl

theorem renormStep_destBit (s : RCState) :
    (renormStep s).destBit = s.destBit + 1 := by
  unfold renormStep
  dsimp only
  split
  · rfl
  · rfl

theorem renormStep_contexts (s : RCState) :
    (renormStep s).contexts = s.contexts := by
  unfold renormStep
  dsimp only
  split
  · rfl
  · rfl

theorem renormGo_destBit_le (fuel : Nat) :
    ∀ s : RCState, s.destBit ≤ (renormGo fuel s).destBit := by
  induction fuel with
  | zero => intro s; exact le_refl _
  | succ fuel ih =>
    intro s
    rw [renormGo]
    split
    · refine le_trans ?_ (ih (renormStep s))
      rw [renormStep_destBit]
      omega
    · exact le_refl _

theorem renormGo_contexts (fuel : Nat) :
    ∀ s : RCState, (renormGo fuel s).contexts = s.contexts := by
  induction fuel with
  | zero => intro s; rfl
  | succ fuel ih =>
    intro s
    rw [renormGo]
    split
    · rw [ih (renormStep s), renormStep_contexts]
    · rfl

theorem applyBit_destBit (s : RCState) (ctx : Nat) (b : Bool) :
    (applyBit s ctx b).destBit = s.destBit := by
  unfold applyBit
  dsimp only
  split
  · rfl
  · split
    · rfl
    · rfl

theorem applyBit_intervalsize_one (s : RCState) (ctx : Nat) :
    (applyBit s ctx true).intervalsize = (s.intervalsize * s.contexts ctx) >>> 16 := by
  unfold applyBit
  dsimp only
  rfl

theorem codeSizeSoFar_eq_claim (s : RCState) (hd : 0 ≤ s.destBit) :
    codeSizeSoFar s = claimSizeSoFar s := by
  unfold codeSizeSoFar claimSizeSoFar
  rw [if_neg (by omega)]

/-- C5 (amended): for every call with a non-negative context and any bit,
from any state with `dest_bit >= 0` (that is, any state after the first
coded bit; the interval and probability bounds are the coder's reachability
invariants), the returned cost equals the difference of
`(dest_bit << 6) + sizetable[(intervalsize - 0x8000) >> 8]` after and
before the call.  From the initial state with `dest_bit = -1` the code
drops the `dest_bit << 6` term of the before-size (RangeCoder.c lines
102-107), so there the claimed formula overshoots the returned cost by 64
(see `rangecoder_cost_initial_mismatch`). -/
theorem rangecoder_cost_eq_size_delta (s : RCState) (c : Int) (b : Bool)
    (hc : 0 ≤ c) (hd : 0 ≤ s.destBit)
    (hs : 0x8000 ≤ s.intervalsize) (hs2 : s.intervalsize < 0x10000)
    (hp : 2 ≤ s.contexts c.toNat) (hp2 : s.contexts c.toNat ≤ 0xffff) :
    (rangecoderCode s c b).1 =
      claimSizeSoFar (rangecoderCode s c b).2 - claimSizeSoFar s := by
  have hb : s.destBit ≤ (renormGo 16 (applyBit s c.toNat b)).destBit := by
    have h1 := renormGo_destBit_le 16 (applyBit s c.toNat b)
    rw [applyBit_destBit] at h1
    exact h1
  unfold rangecoderCode
  rw [if_neg (by omega : ¬ c < 0)]
  dsimp only
  have h3 := codeSizeSoFar_eq_claim
    { renormGo 16 (applyBit s c.toNat b) with
        intervalmin := (renormGo 16 (applyBit s c.toNat b)).intervalmin &&& 0xffff }
    (le_trans hd hb)
  rw [h3, codeSizeSoFar_eq_claim s hd]

/-- Witness for `rangecoder_cost_eq_size_delta` at a concrete state with
`dest_bit = 0`. -/
theorem rangecoder_cost_eq_size_delta_witness :
    0 ≤ (5 : Int) ∧
      0 ≤ (RCState.mk (fun _ => 0x8000) 0x8000 0 0 (fun _ => false) 0).destBit ∧
      0x8000 ≤ (RCState.mk (fun _ => 0x8000) 0x8000 0 0 (fun _ => false) 0).intervalsize ∧
      (RCState.mk (fun _ => 0x8000) 0x8000 0 0 (fun _ => false) 0).intervalsize < 0x10000 ∧
      2 ≤ (RCState.mk (fun _ => 0x8000) 0x8000 0 0 (fun _ => false) 0).contexts (5 : Int).toNat ∧
      (RCState.mk (fun _ => 0x8000) 0x8000 0 0 (fun _ => false) 0).contexts (5 : Int).toNat ≤ 0xffff ∧
      (rangecoderCode (RCState.mk (fun _ => 0x8000) 0x8000 0 0 (fun _ => false) 0) 5 true).1 =
        claimSizeSoFar (rangecoderCode (RCState.mk (fun _ => 0x8000) 0x8000 0 0 (fun _ => false) 0) 5 true).2 -
          claimSizeSoFar (RCState.mk (fun _ => 0x8000) 0x8000 0 0 (fun _ => false) 0) :=
  ⟨by decide, by decide, by decide, by decide, by decide, by decide,
    rangecoder_cost_eq_size_delta _ 5 true (by decide) (by decide) (by decide)
      (by decide) (by decide) (by decide)⟩

/-- C5 counterexample: from the initial state (`dest_bit = -1`, all
probabilities 0x8000), coding bit 1 under context 0 returns cost 0, while
the claimed size difference `(dest_bit << 6) + sizetable[...]` (after minus
before) is 64. -/
theorem rangecoder_cost_initial_mismatch :
    (rangecoderCode rangecoderInit 0 true).1 = 0 ∧
      claimSizeSoFar (rangecoderCode rangecoderInit 0 true).2 -
          claimSizeSoFar rangecoderInit = 64 ∧
      (0 : Int) ≠ 64 := by
  have hd : (rangecoderCode rangecoderInit 0 true).2.destBit = 0 := rfl
  have hs : (rangecoderCode rangecoderInit 0 true).2.intervalsize = 0x8000 := rfl
  have hcost : (rangecoderCode rangecoderInit 0 true).1 =
      codeSizeSoFar (rangecoderCode rangecoderInit 0 true).2 -
        codeSizeSoFar rangecoderInit := rfl
  refine ⟨?_, ?_, by norm_num⟩
  · rw [hcost]
    simp only [codeSizeSoFar, hd, hs]
    norm_num [rangecoderInit]
  · simp only [claimSizeSoFar, hd, hs]
    norm_num [rangecoderInit]

/-- C6: after coding bit 1 under a non-negative context, the stored
probability is `prob + ((0xffff - prob) >> 4)`: the implementation's
expression `prob + (0xffff >> 4) - (prob >> 4)` computes exactly that value
for every probability `0 < prob < 0x10000`. -/
theorem rangecoder_prob_one_update (s : RCState) (c : Int) (hc : 0 ≤ c)
    (hp : 0 < s.contexts c.toNat) (hp2 : s.contexts c.toNat < 0x10000) :
    (rangecoderCode s c true).2.contexts c.toNat =
      s.contexts c.toNat + ((0xffff - s.contexts c.toNat) >>> 4) := by
  have h2 : (rangecoderCode s c true).2.contexts =
      (applyBit s c.toNat true).contexts := by
    unfold rangecoderCode
    rw [if_neg (by omega : ¬ c < 0)]
    dsimp only
    rw [renormGo_contexts]
  rw [h2]
  simp only [applyBit, if_true, ite_true]
  simp only [Nat.shiftRight_eq_div_pow]
  omega

/-- Witness for `rangecoder_prob_one_update` at a concrete state. -/
theorem rangecoder_prob_one_update_witness :
    0 ≤ (3 : Int) ∧
      0 < (RCState.mk (fun _ => 0x8000) 0x8000 0 0 (fun _ => false) 0).contexts (3 : Int).toNat ∧
      (RCState.mk (fun _ => 0x8000) 0x8000 0 0 (fun _ => false) 0).contexts (3 : Int).toNat < 0x10000 ∧
      (rangecoderCode (RCState.mk (fun _ => 0x8000) 0x8000 0 0 (fun _ => false) 0) 3 true).2.contexts (3 : Int).toNat =
        (RCState.mk (fun _ => 0x8000) 0x8000 0 0 (fun _ => false) 0).contexts (3 : Int).toNat +
          ((0xffff - (RCState.mk (fun _ => 0x8000) 0x8000 0 0 (fun _ => false) 0).contexts (3 : Int).toNat) >>> 4) :=
  ⟨by decide, by decide, by decide,
    rangecoder_prob_one_update _ 3 (by decide) (by decide) (by decide)⟩

/-- C1: the compressed bitstream for a long single-byte run contains the
LENGTH-group number 131075 (the reference length for a 131076-byte run of
one repeated value); the decoder's capped number scan misdecodes it as
131073, so decompress(compress(s)) cannot reproduce s.  Base context 769 is
the LENGTH group used by the encoder. -/
theorem decode_length_number_failure :
    decodeNumberBits ((encodeNumberSyms 769 131075).map Prod.snd) =
        some (131073, [true]) ∧
      (131073 : Nat) ≠ 131075 := by
  have hstop : numberStopIndex 131075 = 16 := by
    rw [numberStopIndex, log2_131075]
  rw [encodeNumberSyms_eq_described 769 131075 (by norm_num) (by norm_num)]
  rw [numberSymsDescribed, hstop]
  decide

/-- C2: evaluation of `packData`'s counting step (Pack.c lines 122-133) on
the first iteration for the two-byte input [0, 0] (parity_context false,
running counts all zero).  The literal-tree context 2 receives bit 0 twice,
so the trace frequency there is 2; the code - whose counting encoder is
bound to the running `counting_coder` rather than to the fresh
`new_counting_coder` (line 124) - merges to (3*(0+2) + 0)/4 = 1, while the
claimed step `merge(old, fresh) = (3*0 + 2)/4` gives 0, and the fresh
coder's counters stay 0 instead of holding the frequency 2. -/
theorem pack_count_step_mismatch :
    (tallySyms 1025 (resultEncode 0 [0, 0] 2 [] 0).syms
        (fun _ _ => 0)) 2 false = 2 ∧
      packCountStep 1025 (fun _ _ => 0)
          (resultEncode 0 [0, 0] 2 [] 0).syms 2 false = 1 ∧
      claimCountStep 1025 (fun _ _ => 0)
          (resultEncode 0 [0, 0] 2 [] 0).syms 2 false = 0 ∧
      (1 : Nat) ≠ 0 := by
  refine ⟨by decide, by decide, by decide, by decide⟩

theorem literalRun_lastOffset (pm : Nat) (data : List Nat) :
    ∀ (k pos : Nat) (st : LZState),
      (literalRun pm data k pos st).2.lastOffset = st.lastOffset := by
  intro k
  induction k with
  | zero => intro pos st; rfl
  | succ k ih => intro pos st; exact ih (pos + 1) (literalNextState st)

theorem literalRun_prevWasRef (pm : Nat) (data : List Nat) :
    ∀ (k pos : Nat) (st : LZState), 0 < k →
      (literalRun pm data k pos st).2.prevWasRef = false := by
  intro k
  induction k with
  | zero => intro pos st h; omega
  | succ k ih =>
    intro pos st _
    cases k with
    | zero => rfl
    | succ k2 => exact ih (pos + 1) (literalNextState st) (by omega)

theorem replayEdges_refCalls_safe (pm : Nat) (data : List Nat) :
    ∀ (edges : List LZResultEdge) (pos : Nat) (st : LZState),
      List.Chain' edgeAdj edges →
      (∀ e, edges.head? = some e → pos ≤ e.pos) →
      (∀ e, edges.head? = some e → st.prevWasRef = true → e.pos = pos →
        e.offset ≠ st.lastOffset) →
      ∀ call ∈ (replayEdges pm data edges pos st).refCalls,
        call.1.prevWasRef = true → call.2.1 ≠ call.1.lastOffset := by
  intro edges
  induction edges with
  | nil =>
    intro pos st _ _ _ call hcall
    simp [replayEdges] at hcall
  | cons e rest ih =>
    intro pos st hchain hpos hsafe call hcall href
    rw [List.chain'_cons'] at hchain
    have hple : pos ≤ e.pos := hpos e rfl
    simp only [replayEdges, List.mem_cons] at hcall
    rcases hcall with hc | hc
    · subst hc
      by_cases hk : e.pos - pos = 0
      · have hpe : e.pos = pos := by omega
        rw [hk] at href ⊢
        exact hsafe e rfl href hpe
      · rw [literalRun_prevWasRef pm data _ pos st (by omega)] at href
        exact absurd href (by simp)
    · refine ih ((pos + (e.pos - pos)) + e.length)
        (referenceNextState e.offset e.length
          (literalRun pm data (e.pos - pos) pos st).2)
        hchain.2 ?_ ?_ call hc href
      · intro e2 h2
        have hadj := hchain.1 e2 h2
        have := hadj.1
        omega
      · intro e2 h2 _ hpeq
        have hadj := hchain.1 e2 h2
        have heq : e2.pos = e.pos + e.length := by omega
        exact hadj.2 heq

/-- C10: the encoder's internal assertion in `encode_reference` cannot
fire.  (a) Every reference call `new_edge` makes during a parse passes a
state in which a previous reference implies a changed offset, because the
guard at LZParser.c line 154 skips any candidate duplicating its source's
(offset, target) pair.  (b) During the replay of a parse result whose
chronologically consecutive edges satisfy that same guard (`edgeAdj`),
every `encode_reference` call with `state_before.prev_was_ref` has
`offset != state_before.last_offset`; the zero-padding reference follows a
literal, so it is safe as well. -/
theorem encode_reference_no_repeat_after_ref :
    (∀ srcOffset srcTarget pos offset length st off len,
        newEdgeRefCall srcOffset srcTarget pos offset length =
          some (st, off, len) →
        st.prevWasRef = true → off ≠ st.lastOffset) ∧
      ∀ (parityMask : Nat) (data : List Nat) (dataLength : Nat)
        (edgesStored : List LZResultEdge) (zeroPadding : Nat),
        List.Chain' edgeAdj edgesStored.reverse →
        ∀ call ∈ (resultEncode parityMask data dataLength edgesStored
            zeroPadding).refCalls,
          call.1.prevWasRef = true → call.2.1 ≠ call.1.lastOffset := by
  constructor
  · intro srcOffset srcTarget pos offset length st off len hcall href
    unfold newEdgeRefCall at hcall
    split at hcall
    · exact absurd hcall (by simp)
    · rename_i hguard
      simp only [Option.some.injEq, Prod.mk.injEq] at hcall
      obtain ⟨hst, hoff, -⟩ := hcall
      subst hst
      subst hoff
      have hpt : pos = srcTarget := of_decide_eq_true href
      intro heq
      exact hguard ⟨heq, hpt⟩
  · intro pm data dl es zp hchain call hcall href
    unfold resultEncode at hcall
    dsimp only at hcall
    rcases List.mem_append.mp hcall with h | h
    · exact replayEdges_refCalls_safe pm data es.reverse 0 lzInitialState hchain
        (fun e _ => Nat.zero_le _)
        (fun e _ hp => by simp [lzInitialState] at hp)
        call h href
    · split_ifs at h
      · simp at h
      · simp at h
        subst h
        simp [literalNextState] at href
      · simp at h
      · simp at h

/-- Witness for `encode_reference_no_repeat_after_ref` on a concrete
two-edge result (edges stored last-first, as the parser emits them) with
zero padding 3, whose replay contains a back-to-back reference pair and the
padding reference. -/
theorem encode_reference_no_repeat_after_ref_witness :
    List.Chain' edgeAdj
        ([⟨3, 2, 2⟩, ⟨1, 1, 2⟩] : List LZResultEdge).reverse ∧
      ∀ call ∈ (resultEncode 0 [0, 0, 0, 0, 0] 5
          [⟨3, 2, 2⟩, ⟨1, 1, 2⟩] 3).refCalls,
        call.1.prevWasRef = true → call.2.1 ≠ call.1.lastOffset :=
  ⟨by
      show List.Chain' edgeAdj [⟨1, 1, 2⟩, ⟨3, 2, 2⟩]
      norm_num [List.chain'_cons, List.chain'_singleton, edgeAdj],
    encode_reference_no_repeat_after_ref.2 0 [0, 0, 0, 0, 0] 5
      [⟨3, 2, 2⟩, ⟨1, 1, 2⟩] 3
      (by
        show List.Chain' edgeAdj [⟨1, 1, 2⟩, ⟨3, 2, 2⟩]
        norm_num [List.chain'_cons, List.chain'_singleton, edgeAdj])⟩

theorem getD_mem_of_lt (l : List Int) (i : Nat) (hi : i < l.length) :
    l.getD i 0 ∈ l := by
  rw [List.getD_eq_getElem l 0 hi]
  exact List.getElem_mem hi

theorem heapSwap_length (l : List Int) (i j : Nat) :
    (heapSwap l i j).length = l.length := by
  unfold heapSwap
  simp

theorem heapSwap_subset (l : List Int) (i j : Nat) (hi : i < l.length)
    (hj : j < l.length) : ∀ v ∈ heapSwap l i j, v ∈ l := by
  intro v hv
  unfold heapSwap at hv
  rcases List.mem_or_eq_of_mem_set hv with hv2 | hv2
  · rcases List.mem_or_eq_of_mem_set hv2 with hv3 | hv3
    · exact hv3
    · exact hv3 ▸ getD_mem_of_lt l j hj
  · exact hv2 ▸ getD_mem_of_lt l i hi

theorem heapBubbleUp_subset :
    ∀ (fuel pos : Nat) (l : List Int), pos < l.length →
      ∀ v ∈ heapBubbleUp fuel pos l, v ∈ l := by
  intro fuel
  induction fuel with
  | zero => intro pos l _ v hv; exact hv
  | succ fuel ih =>
    intro pos l hpos v hv
    rw [heapBubbleUp] at hv
    split at hv
    · exact hv
    · split at hv
      · exact hv
      · have hplt : (pos - 1) / 2 < l.length := by omega
        have hlen : (heapSwap l ((pos - 1) / 2) pos).length = l.length :=
          heapSwap_length l _ pos
        exact heapSwap_subset l _ pos hplt hpos v
          (ih _ _ (by omega) v hv)

theorem heapPush_subset (l : List Int) (x : Int) :
    ∀ v ∈ heapPush l x, v ∈ l ∨ v = x := by
  intro v hv
  have h1 : v ∈ l ++ [x] :=
    heapBubbleUp_subset (l.length + 1) l.length (l ++ [x]) (by simp) v hv
  rcases List.mem_append.mp h1 with h | h
  · exact Or.inl h
  · exact Or.inr (List.mem_singleton.mp h)

theorem downTarget_bounds (l : List Int) (pos : Nat)
    (h : downTarget l pos ≠ pos) :
    downTarget l pos < l.length ∧ pos < l.length := by
  unfold downTarget at h ⊢
  dsimp only at h ⊢
  split_ifs at h ⊢ <;> omega

theorem heapBubbleDown_subset :
    ∀ (fuel pos : Nat) (l : List Int), ∀ v ∈ heapBubbleDown fuel pos l, v ∈ l := by
  intro fuel
  induction fuel with
  | zero => intro pos l v hv; exact hv
  | succ fuel ih =>
    intro pos l v hv
    rw [heapBubbleDown] at hv
    split at hv
    · exact hv
    · rename_i hne
      obtain ⟨h1, h2⟩ := downTarget_bounds l pos hne
      exact heapSwap_subset l pos _ h2 h1 v (ih _ _ v hv)

theorem heapPop_fst_mem (l : List Int) (h : l ≠ []) : (heapPop l).1 ∈ l := by
  match l with
  | [] => exact absurd rfl h
  | x :: rest => exact List.mem_cons_self x rest

theorem heapPop_snd_subset (l : List Int) :
    ∀ v ∈ (heapPop l).2, v ∈ l := by
  intro v hv
  match l with
  | [] => exact absurd hv (by simp [heapPop])
  | x :: rest =>
    unfold heapPop at hv
    dsimp only at hv
    have hv2 : v ∈ ((x :: rest).set 0
        ((x :: rest).getD ((x :: rest).length - 1) 0)).dropLast :=
      heapBubbleDown_subset _ 0 _ v hv
    have hv3 := List.dropLast_subset _ hv2
    rcases List.mem_or_eq_of_mem_set hv3 with h | h
    · exact h
    · refine h ▸ getD_mem_of_lt _ _ ?_
      simp

theorem heapTop_mem (l : List Int) (h : l ≠ []) : heapTop l ∈ l := by
  match l with
  | [] => exact absurd rfl h
  | x :: rest => exact List.mem_cons_self x rest

theorem extendLeftGo_shape :
    ∀ (fuel : Nat) (iter : Int) (s : MFState), ∃ li ll,
      extendLeftGo fuel iter s = { s with leftIndex := li, leftLength := ll } ∧
        (ll ≤ s.leftLength ∨ ll = 0) := by
  intro fuel
  induction fuel with
  | zero =>
    intro iter s
    exact ⟨s.leftIndex, s.leftLength, rfl, Or.inl (le_refl _)⟩
  | succ fuel ih =>
    intro iter s
    rw [extendLeftGo]
    dsimp only
    split
    · split
      · exact ⟨s.leftIndex - 1, min s.leftLength (s.lcp (s.leftIndex - 1)),
          rfl, Or.inl (min_le_left _ _)⟩
      · split
        · exact ⟨s.leftIndex - 1, 0, rfl, Or.inr rfl⟩
        · obtain ⟨li, ll, heq, hle⟩ := ih (iter + 1)
            { s with leftIndex := s.leftIndex - 1, leftLength := min s.leftLength (s.lcp (s.leftIndex - 1)) }
          refine ⟨li, ll, heq, ?_⟩
          rcases hle with h | h
          · exact Or.inl (le_trans h (min_le_left _ _))
          · exact Or.inr h
    · exact ⟨s.leftIndex, s.leftLength, rfl, Or.inl (le_refl _)⟩

theorem extendLeftGo_cursor :
    ∀ (fuel : Nat) (iter : Int) (s : MFState),
      1 ≤ s.minLength →
      (s.matchPatience - iter).toNat < fuel →
      s.minLength ≤ (extendLeftGo fuel iter s).leftLength →
      s.sa (extendLeftGo fuel iter s).leftIndex < s.currentPos := by
  intro fuel
  induction fuel with
  | zero => intro iter s _ hf; omega
  | succ fuel ih =>
    intro iter s hm hf
    rw [extendLeftGo]
    dsimp only
    split
    · split
      · rename_i hbreak
        intro _
        exact hbreak.1
      · split
        · intro habs
          have h0 : s.minLength ≤ (0 : Int) := habs
          omega
        · rename_i hnp
          intro hlen
          have hpat : ¬ s.matchPatience < iter + 1 := hnp
          exact ih (iter + 1)
            { s with leftIndex := s.leftIndex - 1, leftLength := min s.leftLength (s.lcp (s.leftIndex - 1)) }
            hm (show (s.matchPatience - (iter + 1)).toNat < fuel by omega) hlen
    · rename_i hcond
      intro hlen
      exact absurd hlen hcond

theorem extendLeft_shape (s : MFState) : ∃ li ll,
    extendLeft s = { s with leftIndex := li, leftLength := ll } ∧
      (ll ≤ s.leftLength ∨ ll = 0) :=
  extendLeftGo_shape _ 0 s

theorem extendLeft_cursor (s : MFState) (hm : 1 ≤ s.minLength)
    (hlen : s.minLength ≤ (extendLeft s).leftLength) :
    s.sa (extendLeft s).leftIndex < s.currentPos :=
  extendLeftGo_cursor _ 0 s hm (by omega) hlen

theorem extendRightGo_shape :
    ∀ (fuel : Nat) (iter : Int) (s : MFState), ∃ ri rl,
      extendRightGo fuel iter s = { s with rightIndex := ri, rightLength := rl } ∧
        (rl ≤ s.rightLength ∨ rl = 0) := by
  intro fuel
  induction fuel with
  | zero =>
    intro iter s
    exact ⟨s.rightIndex, s.rightLength, rfl, Or.inl (le_refl _)⟩
  | succ fuel ih =>
    intro iter s
    rw [extendRightGo]
    dsimp only
    split
    · exact ⟨s.rightIndex, min s.rightLength (s.lcp s.rightIndex),
        rfl, Or.inl (min_le_left _ _)⟩
    · split
      · exact ⟨s.rightIndex + 1, min s.rightLength (s.lcp s.rightIndex),
          rfl, Or.inl (min_le_left _ _)⟩
      · split
        · exact ⟨s.rightIndex + 1, 0, rfl, Or.inr rfl⟩
        · obtain ⟨ri, rl, heq, hle⟩ := ih (iter + 1)
            { s with rightIndex := s.rightIndex + 1, rightLength := min s.rightLength (s.lcp s.rightIndex) }
          refine ⟨ri, rl, heq, ?_⟩
          rcases hle with h | h
          · exact Or.inl (le_trans h (min_le_left _ _))
          · exact Or.inr h

theorem extendRightGo_cursor :
    ∀ (fuel : Nat) (iter : Int) (s : MFState),
      1 ≤ s.minLength →
      (s.matchPatience - iter).toNat < fuel →
      s.minLength ≤ (extendRightGo fuel iter s).rightLength →
      s.sa (extendRightGo fuel iter s).rightIndex < s.currentPos := by
  intro fuel
  induction fuel with
  | zero => intro iter s _ hf; omega
  | succ fuel ih =>
    intro iter s hm hf
    rw [extendRightGo]
    dsimp only
    split
    · rename_i hcond
      intro hlen
      have h2 : s.minLength ≤ min s.rightLength (s.lcp s.rightIndex) := hlen
      have h3 : min s.rightLength (s.lcp s.rightIndex) < s.minLength := hcond
      omega
    · split
      · rename_i hbreak
        intro _
        exact hbreak.1
      · split
        · intro habs
          have h0 : s.minLength ≤ (0 : Int) := habs
          omega
        · rename_i hnp
          intro hlen
          have hpat : ¬ s.matchPatience < iter + 1 := hnp
          exact ih (iter + 1)
            { s with rightIndex := s.rightIndex + 1, rightLength := min s.rightLength (s.lcp s.rightIndex) }
            hm (show (s.matchPatience - (iter + 1)).toNat < fuel by omega) hlen

theorem extendRight_shape (s : MFState) : ∃ ri rl,
    extendRight s = { s with rightIndex := ri, rightLength := rl } ∧
      (rl ≤ s.rightLength ∨ rl = 0) :=
  extendRightGo_shape _ 0 s

theorem extendRight_cursor (s : MFState) (hm : 1 ≤ s.minLength)
    (hlen : s.minLength ≤ (extendRight s).rightLength) :
    s.sa (extendRight s).rightIndex < s.currentPos :=
  extendRightGo_cursor _ 0 s hm (by omega) hlen

theorem beginMatching_spec (s : MFState) (pos : Int) (hb : s.buffer = [])
    (hm : 1 ≤ s.minLength) (hp : 0 < pos) :
    MFInv (beginMatching s pos) ∧ (beginMatching s pos).currentPos = pos ∧
      (beginMatching s pos).buffer = [] := by
  unfold beginMatching
  dsimp only
  obtain ⟨li, ll, hL, _⟩ := extendLeft_shape
    { s with
        currentPos := pos
        minPos := 0
        leftIndex := s.isa pos
        leftLength := s.length - pos }
  have hcurL := extendLeft_cursor
    { s with
        currentPos := pos
        minPos := 0
        leftIndex := s.isa pos
        leftLength := s.length - pos } hm
  rw [hL] at hcurL ⊢
  obtain ⟨ri, rl, hR, _⟩ := extendRight_shape
    { s with
        currentPos := pos
        minPos := 0
        leftIndex := li
        leftLength := ll
        rightIndex := s.isa pos
        rightLength := s.length - pos }
  have hcurR := extendRight_cursor
    { s with
        currentPos := pos
        minPos := 0
        leftIndex := li
        leftLength := ll
        rightIndex := s.isa pos
        rightLength := s.length - pos } hm
  rw [hR] at hcurR ⊢
  refine ⟨⟨hm, le_refl 0, hp, ?_, ?_, ?_, ?_⟩, rfl, hb⟩
  · intro v hv
    rw [hb] at hv
    exact absurd hv (List.not_mem_nil v)
  · intro hne
    exact absurd hb hne
  · intro h
    exact hcurL h
  · intro h
    exact hcurR h

theorem fillChoose_spec (s : MFState) (hm : 1 ≤ s.minLength)
    (hcl : s.minLength ≤ s.currentLength)
    (hnl : nextLength s = s.currentLength) (hC : CurInv s) :
    (fillChoose s).1 < s.currentPos ∧
      (fillChoose s).2.minLength = s.minLength ∧
      (fillChoose s).2.currentPos = s.currentPos ∧
      (fillChoose s).2.currentLength = s.currentLength ∧
      (fillChoose s).2.maxSameLength = s.maxSameLength ∧
      (fillChoose s).2.buffer = s.buffer ∧
      (fillChoose s).2.minPos = s.minPos ∧
      nextLength (fillChoose s).2 ≤ s.currentLength ∧
      CurInv (fillChoose s).2 := by
  unfold fillChoose
  unfold nextLength at hnl
  by_cases hside : s.rightLength < s.leftLength
  · rw [if_pos hside]
    obtain ⟨li, ll, hL, hle⟩ := extendLeft_shape s
    have hcur := extendLeft_cursor s hm
    rw [hL] at hcur ⊢
    have hmax : s.leftLength = s.currentLength := by
      rw [← hnl]; omega
    refine ⟨?_, rfl, rfl, rfl, rfl, rfl, rfl, ?_, ?_, ?_⟩
    · exact hC.1 (by omega)
    · show max ll s.rightLength ≤ s.currentLength
      rcases hle with h | h <;> omega
    · intro h
      exact hcur h
    · intro h
      exact hC.2 h
  · rw [if_neg hside]
    obtain ⟨ri, rl, hR, hle⟩ := extendRight_shape s
    have hcur := extendRight_cursor s hm
    rw [hR] at hcur ⊢
    have hmax : s.rightLength = s.currentLength := by
      rw [← hnl]; omega
    refine ⟨?_, rfl, rfl, rfl, rfl, rfl, rfl, ?_, ?_, ?_⟩
    · exact hC.2 (by omega)
    · show max s.leftLength rl ≤ s.currentLength
      rcases hle with h | h <;> omega
    · intro h
      exact hC.1 h
    · intro h
      exact hcur h

theorem fillBuffer_spec (s1 : MFState) (mp : Int) :
    (∀ v ∈ (fillBuffer s1 mp).buffer, v ∈ s1.buffer ∨ v = mp) ∧
      (fillBuffer s1 mp).minLength = s1.minLength ∧
      (fillBuffer s1 mp).currentPos = s1.currentPos ∧
      (fillBuffer s1 mp).currentLength = s1.currentLength ∧
      (fillBuffer s1 mp).maxSameLength = s1.maxSameLength ∧
      (fillBuffer s1 mp).leftLength = s1.leftLength ∧
      (fillBuffer s1 mp).rightLength = s1.rightLength ∧
      (fillBuffer s1 mp).leftIndex = s1.leftIndex ∧
      (fillBuffer s1 mp).rightIndex = s1.rightIndex ∧
      (fillBuffer s1 mp).sa = s1.sa ∧
      (CurInv s1 → CurInv (fillBuffer s1 mp)) := by
  unfold fillBuffer
  split
  · refine ⟨?_, rfl, rfl, rfl, rfl, rfl, rfl, rfl, rfl, rfl, fun h => h⟩
    intro v hv
    exact heapPush_subset s1.buffer mp v hv
  · dsimp only
    split
    · refine ⟨?_, rfl, rfl, rfl, rfl, rfl, rfl, rfl, rfl, rfl, fun h => h⟩
      intro v hv
      rcases heapPush_subset (heapPop s1.buffer).2 mp v hv with h | h
      · exact Or.inl (heapPop_snd_subset s1.buffer v h)
      · exact Or.inr h
    · exact ⟨fun v hv => Or.inl hv, rfl, rfl, rfl, rfl, rfl, rfl, rfl, rfl,
        rfl, fun h => h⟩

theorem fillGo_inv :
    ∀ (fuel : Nat) (nmp : Int) (s : MFState),
      1 ≤ s.minLength →
      s.minLength ≤ s.currentLength →
      nextLength s = s.currentLength →
      CurInv s →
      (∀ v ∈ s.buffer, v < s.currentPos ∧ v ≤ nmp) →
      (∀ v ∈ (fillGo fuel nmp s).1.buffer,
          v < s.currentPos ∧ v ≤ (fillGo fuel nmp s).2) ∧
        nextLength (fillGo fuel nmp s).1 ≤ s.currentLength ∧
        (fillGo fuel nmp s).1.currentLength = s.currentLength ∧
        (fillGo fuel nmp s).1.currentPos = s.currentPos ∧
        (fillGo fuel nmp s).1.minLength = s.minLength ∧
        CurInv (fillGo fuel nmp s).1 ∧
        nmp ≤ (fillGo fuel nmp s).2 := by
  intro fuel
  induction fuel with
  | zero =>
    intro nmp s hm hcl hnl hC hbuf
    exact ⟨hbuf, le_of_eq hnl, rfl, rfl, rfl, hC, le_refl _⟩
  | succ fuel ih =>
    intro nmp s hm hcl hnl hC hbuf
    obtain ⟨hmp, hml, hcp, hclq, hmax, hbufq, hmpq, hnl1, hC1⟩ :=
      fillChoose_spec s hm hcl hnl hC
    obtain ⟨hsub, bml, bcp, bcl, bmax, bll, brl, bli, bri, bsa, bcur⟩ :=
      fillBuffer_spec (fillChoose s).2 (fillChoose s).1
    have hbuf2 : ∀ v ∈ (fillBuffer (fillChoose s).2 (fillChoose s).1).buffer,
        v < s.currentPos ∧ v ≤ max nmp (fillChoose s).1 := by
      intro v hv
      rcases hsub v hv with h | h
      · rw [hbufq] at h
        obtain ⟨h1, h2⟩ := hbuf v h
        exact ⟨h1, by omega⟩
      · subst h
        exact ⟨hmp, by omega⟩
    have hnl2 : nextLength (fillBuffer (fillChoose s).2 (fillChoose s).1) ≤
        s.currentLength := by
      unfold nextLength at hnl1 ⊢
      rw [bll, brl]
      exact hnl1
    have hcl2 : (fillBuffer (fillChoose s).2 (fillChoose s).1).currentLength =
        s.currentLength := by rw [bcl, hclq]
    have hcp2 : (fillBuffer (fillChoose s).2 (fillChoose s).1).currentPos =
        s.currentPos := by rw [bcp, hcp]
    have hml2 : (fillBuffer (fillChoose s).2 (fillChoose s).1).minLength =
        s.minLength := by rw [bml, hml]
    have hC2 : CurInv (fillBuffer (fillChoose s).2 (fillChoose s).1) :=
      bcur hC1
    rw [fillGo]
    split
    · rename_i hloop
      obtain ⟨c1, c2, c3, c4, c5, c6, c7⟩ := ih (max nmp (fillChoose s).1)
        (fillBuffer (fillChoose s).2 (fillChoose s).1)
        (by omega) (by rw [hml2, hcl2]; exact hcl)
        (by rw [hloop, hcl2]) hC2
        (by intro v hv; rw [hcp2]; exact hbuf2 v hv)
      refine ⟨?_, by omega, by omega, by omega, by omega, c6, by omega⟩
      intro v hv
      obtain ⟨d1, d2⟩ := c1 v hv
      constructor
      · omega
      · exact d2
    · refine ⟨hbuf2, hnl2, hcl2, hcp2, hml2, hC2, by omega⟩

theorem nextLength_update (t : MFState) (mpos : Int) (buf : List Int) :
    nextLength { t with minPos := mpos, buffer := buf } = nextLength t := rfl

theorem nextMatch_spec (fuel : Nat) (s : MFState) (L : Int)
    (mp ml : Int) (s' : MFState) (hInv : MFInv s) (hB : MFBound s L)
    (h : nextMatch fuel s = some ((mp, ml), s')) :
    mp < s.currentPos ∧ mp ≤ s'.minPos ∧ ml ≤ L ∧
      s'.currentPos = s.currentPos ∧ MFInv s' ∧ MFBound s' ml := by
  obtain ⟨hm, hmp0, hcp0, hbufP, hbufNe, hC⟩ := hInv
  obtain ⟨hB1, hB2⟩ := hB
  unfold nextMatch at h
  by_cases hemp : s.buffer.isEmpty
  · have hbe : s.buffer = [] := List.isEmpty_iff.mp hemp
    rw [if_pos hemp] at h
    by_cases hlt : ({ s with currentLength := nextLength s } : MFState).currentLength <
        ({ s with currentLength := nextLength s } : MFState).minLength
    · rw [if_pos hlt] at h
      exact absurd h (by simp)
    · rw [if_neg hlt] at h
      dsimp only at h
      have hlt2 : ¬ nextLength s < s.minLength := hlt
      obtain ⟨f1, f2, f3, f4, f5, f6, f7⟩ :=
        fillGo_inv fuel s.minPos { s with currentLength := nextLength s }
          hm (by omega) rfl hC (by rw [hbe]; intro v hv; cases hv)
      have f2a : nextLength (fillGo fuel s.minPos
          { s with currentLength := nextLength s }).1 ≤ nextLength s := f2
      have f3a : (fillGo fuel s.minPos
          { s with currentLength := nextLength s }).1.currentLength =
            nextLength s := f3
      have f4a : (fillGo fuel s.minPos
          { s with currentLength := nextLength s }).1.currentPos =
            s.currentPos := f4
      have f5a : (fillGo fuel s.minPos
          { s with currentLength := nextLength s }).1.minLength =
            s.minLength := f5
      simp only [Option.some.injEq, Prod.mk.injEq] at h
      obtain ⟨⟨hmp, hml⟩, hs'⟩ := h
      by_cases hrb : (fillGo fuel s.minPos
          { s with currentLength := nextLength s }).1.buffer = []
      · have hpop : heapPop (fillGo fuel s.minPos
            { s with currentLength := nextLength s }).1.buffer = (-1, []) := by
          rw [hrb]; rfl
        rw [hpop] at hmp hs'
        subst hmp
        subst hml
        subst hs'
        refine ⟨by omega, ?_, ?_, ?_, ?_, ?_⟩
        · show (-1 : Int) ≤ (fillGo fuel s.minPos
            { s with currentLength := nextLength s }).2
          omega
        · exact le_trans (le_of_eq f3) hB1
        · exact f4
        · refine ⟨?_, ?_, ?_, ?_, ?_, f6⟩
          · show 1 ≤ (fillGo fuel s.minPos
              { s with currentLength := nextLength s }).1.minLength
            omega
          · show (0 : Int) ≤ (fillGo fuel s.minPos
              { s with currentLength := nextLength s }).2
            omega
          · show 0 < (fillGo fuel s.minPos
              { s with currentLength := nextLength s }).1.currentPos
            omega
          · intro v hv
            cases hv
          · intro hne
            exact absurd rfl hne
        · constructor
          · rw [nextLength_update]
            show nextLength (fillGo fuel s.minPos
              { s with currentLength := nextLength s }).1 ≤
                (fillGo fuel s.minPos
                  { s with currentLength := nextLength s }).1.currentLength
            omega
          · intro hne
            exact absurd rfl hne
      · have hmem := heapPop_fst_mem _ hrb
        obtain ⟨g1, g2⟩ := f1 _ hmem
        subst hmp
        subst hml
        subst hs'
        refine ⟨g1, g2, ?_, ?_, ?_, ?_⟩
        · exact le_trans (le_of_eq f3) hB1
        · exact f4
        · refine ⟨?_, ?_, ?_, ?_, ?_, f6⟩
          · show 1 ≤ (fillGo fuel s.minPos
              { s with currentLength := nextLength s }).1.minLength
            omega
          · show (0 : Int) ≤ (fillGo fuel s.minPos
              { s with currentLength := nextLength s }).2
            omega
          · show 0 < (fillGo fuel s.minPos
              { s with currentLength := nextLength s }).1.currentPos
            omega
          · intro v hv
            obtain ⟨d1, d2⟩ := f1 v (heapPop_snd_subset _ v hv)
            have d1a : v < s.currentPos := d1
            have d2a : v ≤ (fillGo fuel s.minPos
              { s with currentLength := nextLength s }).2 := d2
            refine ⟨?_, ?_⟩
            · show v < (fillGo fuel s.minPos
                { s with currentLength := nextLength s }).1.currentPos
              omega
            · show v ≤ (fillGo fuel s.minPos
                { s with currentLength := nextLength s }).2
              omega
          · intro _
            constructor
            · rw [nextLength_update]
              show nextLength (fillGo fuel s.minPos
                { s with currentLength := nextLength s }).1 ≤
                  (fillGo fuel s.minPos
                    { s with currentLength := nextLength s }).1.currentLength
              omega
            · show (fillGo fuel s.minPos
                { s with currentLength := nextLength s }).1.minLength ≤
                  (fillGo fuel s.minPos
                    { s with currentLength := nextLength s }).1.currentLength
              omega
        · constructor
          · rw [nextLength_update]
            show nextLength (fillGo fuel s.minPos
              { s with currentLength := nextLength s }).1 ≤
                (fillGo fuel s.minPos
                  { s with currentLength := nextLength s }).1.currentLength
            omega
          · intro _
            exact le_refl _
  · have hbe : s.buffer ≠ [] := by
      intro hh
      rw [hh] at hemp
      exact hemp rfl
    rw [if_neg hemp] at h
    dsimp only at h
    simp only [Option.some.injEq, Prod.mk.injEq] at h
    obtain ⟨⟨hmp, hml⟩, hs'⟩ := h
    have hmem := heapPop_fst_mem _ hbe
    obtain ⟨g1, g2⟩ := hbufP _ hmem
    obtain ⟨hnl, hml2⟩ := hbufNe hbe
    subst hmp
    subst hml
    subst hs'
    refine ⟨g1, g2, hB2 hbe, rfl, ?_, ?_⟩
    · refine ⟨hm, hmp0, hcp0, ?_, ?_, hC⟩
      · intro v hv
        exact hbufP v (heapPop_snd_subset _ v hv)
      · intro _
        exact ⟨hnl, hml2⟩
    · exact ⟨hnl, fun _ => le_refl _⟩

theorem runMatches_spec (fs : List Nat) (s : MFState) (L : Int)
    (hInv : MFInv s) (hB : MFBound s L) :
    (∀ m ∈ (runMatches fs s).1, m.1 < s.currentPos ∧ m.2 ≤ L) ∧
      List.Chain' (fun a b : Int × Int => b.2 ≤ a.2) (runMatches fs s).1 := by
  induction fs generalizing s L with
  | nil =>
    refine ⟨?_, List.chain'_nil⟩
    intro m hm
    cases hm
  | cons f fs ih =>
    cases hnm : nextMatch f s with
    | none =>
      simp only [runMatches, hnm]
      refine ⟨?_, List.chain'_nil⟩
      intro m hm
      cases hm
    | some pr =>
      obtain ⟨⟨mp, ml⟩, s'⟩ := pr
      obtain ⟨c1, c2, c3, c4, c5, c6⟩ := nextMatch_spec f s L mp ml s' hInv hB hnm
      obtain ⟨ih1, ih2⟩ := ih s' ml c5 c6
      simp only [runMatches, hnm]
      refine ⟨?_, ?_⟩
      · intro m hm
        rcases List.mem_cons.mp hm with hm1 | hm2
        · subst hm1
          exact ⟨c1, c3⟩
        · obtain ⟨d1, d2⟩ := ih1 m hm2
          exact ⟨by omega, by omega⟩
      · refine List.chain'_cons'.mpr ⟨?_, ih2⟩
        intro b hb
        have hbmem : b ∈ (runMatches fs s').1 := List.mem_of_mem_head? hb
        exact (ih1 b hbmem).2

/-- C8: from any state with an empty buffer and `min_length >= 1`, after
`begin_matching(pos)` every sequence of successive `next_match` calls
returns `(match_pos, match_length)` tuples whose `match_length` values are
non-increasing and bounded by the first `next_length`, and whose
`match_pos` values are all strictly below `pos`; moreover every single
`next_match` call from an invariant state returns `match_pos` strictly
below the query position and at most the updated `min_pos` floor, leaves
the query position unchanged, and re-establishes the invariant with the
returned length bounding all later lengths. -/
theorem matchfinder_next_match_ordering (s : MFState) (pos : Int)
    (hb : s.buffer = []) (hm : 1 ≤ s.minLength) (hp : 0 < pos)
    (fs : List Nat) :
    (∀ m ∈ (runMatches fs (beginMatching s pos)).1,
        m.1 < pos ∧ m.2 ≤ nextLength (beginMatching s pos)) ∧
      List.Chain' (fun a b : Int × Int => b.2 ≤ a.2)
        (runMatches fs (beginMatching s pos)).1 ∧
      (∀ (f : Nat) (t : MFState) (mp ml : Int) (t' : MFState),
        MFInv t → nextMatch f t = some ((mp, ml), t') →
        mp < t.currentPos ∧ mp ≤ t'.minPos ∧ t'.currentPos = t.currentPos ∧
          MFInv t' ∧ MFBound t' ml) := by
  obtain ⟨hI, hcp, hbuf⟩ := beginMatching_spec s pos hb hm hp
  have hBd : MFBound (beginMatching s pos) (nextLength (beginMatching s pos)) :=
    ⟨le_refl _, fun hne => absurd hbuf hne⟩
  obtain ⟨r1, r2⟩ := runMatches_spec fs (beginMatching s pos)
    (nextLength (beginMatching s pos)) hI hBd
  refine ⟨?_, r2, ?_⟩
  · intro m hm'
    obtain ⟨d1, d2⟩ := r1 m hm'
    rw [hcp] at d1
    exact ⟨d1, d2⟩
  · intro f t mp ml t' hIt hnt
    have hBt : MFBound t (max (nextLength t) t.currentLength) :=
      ⟨le_max_left _ _, fun _ => le_max_right _ _⟩
    obtain ⟨c1, c2, _, c4, c5, c6⟩ :=
      nextMatch_spec f t (max (nextLength t) t.currentLength) mp ml t' hIt hBt hnt
    exact ⟨c1, c2, c4, c5, c6⟩

theorem matchfinder_next_match_ordering_witness :
    mfExample.buffer = [] ∧ 1 ≤ mfExample.minLength ∧ (0 : Int) < 2 ∧
      ((∀ m ∈ (runMatches [200] (beginMatching mfExample 2)).1,
          m.1 < 2 ∧ m.2 ≤ nextLength (beginMatching mfExample 2)) ∧
        List.Chain' (fun a b : Int × Int => b.2 ≤ a.2)
          (runMatches [200] (beginMatching mfExample 2)).1 ∧
        (∀ (f : Nat) (t : MFState) (mp ml : Int) (t' : MFState),
          MFInv t → nextMatch f t = some ((mp, ml), t') →
          mp < t.currentPos ∧ mp ≤ t'.minPos ∧ t'.currentPos = t.currentPos ∧
            MFInv t' ∧ MFBound t' ml)) :=
  ⟨rfl, by decide, by decide,
    matchfinder_next_match_ordering mfExample 2 rfl (by decide) (by decide) [200]⟩

end Shrinkler
